import Mathlib

/-!
Verification of the LyriLearn repository against its specification.

The development embeds, as executable Lean definitions:
* the bipartite alignment-grouping algorithm of src/api/align.py
  (candidate selection plus connected components over the link graph,
  plus singleton completion), and
* the post-processing of the translation response in translate_lines of
  src/api/main.py.

The external SimAlign aligner and the translation service are out of scope
(black boxes per the specification): their outputs enter the embedded
functions as parameters.
-/

namespace Align

/-- Preference order for SimAlign matching methods (align.py line 10). -/
def PREFERENCE : List String := ["itermax", "mwmf", "inter"]

/-- The candidate mapping returned by the upstream aligner: a Python dict from
method name to a set of (i, j) index pairs, modelled as an association list in
dict insertion order; a set value is modelled as a list, Python truthiness of a
value being non-emptiness. -/
abbrev Candidates := List (String × List (Nat × Nat))

/-- First loop of _first_present (align.py lines 20-22): the value d[k] of the
first key k in keys with k present in d and d[k] truthy (non-empty). -/
def firstPresentPref (d : Candidates) : List String → Option (List (Nat × Nat))
  | [] => none
  | k :: ks =>
    match d.lookup k with
    | some v => if v = [] then firstPresentPref d ks else some v
    | none => firstPresentPref d ks

/-- Second loop of _first_present (align.py lines 24-26): the first truthy
(non-empty) value in d, in dict order. -/
def firstPresentAny : Candidates → Option (List (Nat × Nat))
  | [] => none
  | (_, v) :: rest => if v = [] then firstPresentAny rest else some v

/-- _first_present (align.py lines 19-27): preferred keys first, then any
non-empty value, then the empty set. -/
def _first_present (d : Candidates) (keys : List String) : List (Nat × Nat) :=
  match firstPresentPref d keys with
  | some v => v
  | none =>
    match firstPresentAny d with
    | some v => v
    | none => []

/-- The selection rule in the words of the specification: the value of the
first preferred name present in the mapping, else the first non-empty value in
the mapping, else the empty set. Stated for comparison with _first_present;
the two differ when a preferred name is present with an empty value. -/
def firstPresentClaim (d : Candidates) (keys : List String) : List (Nat × Nat) :=
  match keys.find? (fun k => (d.lookup k).isSome) with
  | some k => (d.lookup k).getD []
  | none =>
    match d.find? (fun kv => decide (kv.2 ≠ [])) with
    | some kv => kv.2
    | none => []

/-- The amended selection rule: the value of the first preferred name whose
value in the mapping is non-empty, else the first non-empty value in the
mapping, else the empty set. -/
def firstPresentAmended (d : Candidates) (keys : List String) : List (Nat × Nat) :=
  match keys.find? (fun k => decide ((d.lookup k).getD [] ≠ [])) with
  | some k => (d.lookup k).getD []
  | none =>
    match d.find? (fun kv => decide (kv.2 ≠ [])) with
    | some kv => kv.2
    | none => []

/-- Side tag of a graph node: "l2" indexes src_tokens, "l1" indexes tgt_tokens,
as in the tagged tuples of align.py lines 52-53. -/
inductive Side where
  | l2
  | l1
deriving DecidableEq, Repr

/-- A node of the bipartite link graph: a token index tagged with its side. -/
abbrev Node := Side × Nat

/-- One output group of align_tokens, the dict with keys "l2" and "l1"
(align.py line 35). -/
structure Group where
  l2 : List Nat
  l1 : List Nat
deriving DecidableEq, Repr

/-- Element insertion for a Python set modelled as a duplicate-free list. -/
def insertUniq {α : Type} [DecidableEq α] (l : List α) (x : α) : List α :=
  if x ∈ l then l else l ++ [x]

/-- The keys of the defaultdict g built on align.py lines 49-53, in insertion
order: each pair (i, j) creates key ("l2", i) and then key ("l1", j). -/
def gKeys (pairs : List (Nat × Nat)) : List Node :=
  pairs.foldl (fun ks p => insertUniq (insertUniq ks (Side.l2, p.1)) (Side.l1, p.2)) []

/-- The neighbor set g[n] of the defaultdict built on align.py lines 49-53,
the set being modelled as a duplicate-free list in first-insertion order:
each pair (i, j) adds ("l1", j) to g[("l2", i)] and ("l2", i) to
g[("l1", j)]. -/
def gAdj (pairs : List (Nat × Nat)) (n : Node) : List Node :=
  match n with
  | (Side.l2, i) =>
    pairs.foldl (fun acc p => if p.1 = i then insertUniq acc (Side.l1, p.2) else acc) []
  | (Side.l1, j) =>
    pairs.foldl (fun acc p => if p.2 = j then insertUniq acc (Side.l2, p.1) else acc) []

/-- The neighbor loop of the BFS (align.py lines 67-70): push every not yet
seen neighbor onto the queue, marking it seen. Returns (seen, queue). -/
def pushNbs : List Node → List Node → List Node → List Node × List Node
  | [], seen, q => (seen, q)
  | nb :: rest, seen, q =>
    if nb ∈ seen then pushNbs rest seen q else pushNbs rest (nb :: seen) (q ++ [nb])

/-- The BFS worklist loop (align.py lines 64-70), collecting the popped nodes
in pop order. The fuel argument only bounds the number of iterations; the
callers below always supply enough fuel for the queue to drain, since every
node is pushed at most once (pushes are seen-guarded). -/
def bfsAux (adj : Node → List Node) :
    Nat → List Node → List Node → List Node → List Node × List Node
  | 0, _, comp, seen => (comp, seen)
  | _ + 1, [], comp, seen => (comp, seen)
  | fuel + 1, n :: q, comp, seen =>
    let sq := pushNbs (adj n) seen q
    bfsAux adj fuel sq.2 (comp ++ [n]) sq.1

/-- sorted(s) for a Python set s modelled as a list: the distinct elements in
ascending order. -/
def sortDedup (l : List Nat) : List Nat := l.dedup.insertionSort (· ≤ ·)

/-- The indices of the component nodes lying on side s: the contents of the
sets comp_l2 / comp_l1 of align.py lines 61-66. -/
def sideIdx (s : Side) (comp : List Node) : List Nat :=
  comp.filterMap (fun n => if n.1 = s then some n.2 else none)

/-- The output group of one finished component (align.py line 71). -/
def mkGroup (comp : List Node) : Group :=
  ⟨sortDedup (sideIdx Side.l2 comp), sortDedup (sideIdx Side.l1 comp)⟩

/-- The outer component loop (align.py lines 58-71): for every unvisited key,
run a BFS seeded with that key (which is marked seen first), and emit the
component found as a group. -/
def componentsAux (adj : Node → List Node) (fuel : Nat) :
    List Node → List Node → List Group
  | [], _ => []
  | n :: rest, seen =>
    if n ∈ seen then componentsAux adj fuel rest seen
    else
      let cs := bfsAux adj fuel [n] [] (n :: seen)
      mkGroup cs.1 :: componentsAux adj fuel rest cs.2

/-- The connected-component groups of the bipartite link graph
(align.py lines 46-71). -/
def components (pairs : List (Nat × Nat)) : List Group :=
  componentsAux (gAdj pairs) ((gKeys pairs).length + 1) (gKeys pairs) []

/-- align_tokens (align.py lines 30-83) with the external aligner abstracted:
pairs is the link set selected on line 44, and the token sequences enter the
algorithm only through their lengths (the emptiness test of line 38 and the
ranges of lines 76 and 79). Lines 73-81 append singleton groups for every
index not covered by the component groups, A side first, in ascending index
order, the coverage sets linked_l2 and linked_l1 being computed from the
component groups before any singleton is appended. -/
def align_tokens (pairs : List (Nat × Nat)) (lenA lenB : Nat) : List Group :=
  if lenA = 0 ∨ lenB = 0 then []
  else
    let comps := components pairs
    let linkedL2 := comps.flatMap Group.l2
    let linkedL1 := comps.flatMap Group.l1
    comps
      ++ ((List.range lenA).filter (fun i => decide (i ∉ linkedL2))).map
          (fun i => ⟨[i], []⟩)
      ++ ((List.range lenB).filter (fun j => decide (j ∉ linkedL1))).map
          (fun j => ⟨[], [j]⟩)

/-- An undirected edge of the bipartite link graph: a link (i, j) connects the
node ("l2", i) with the node ("l1", j), in both directions. -/
def EdgeP (pairs : List (Nat × Nat)) (a b : Node) : Prop :=
  (∃ p, p ∈ pairs ∧ a = (Side.l2, p.1) ∧ b = (Side.l1, p.2)) ∨
  (∃ p, p ∈ pairs ∧ a = (Side.l1, p.2) ∧ b = (Side.l2, p.1))

/-- Connectivity in the bipartite link graph. -/
def Reach (pairs : List (Nat × Nat)) : Node → Node → Prop :=
  Relation.ReflTransGen (EdgeP pairs)

/-- The tagged nodes represented by a group: its "l2" indices tagged with
Side.l2 and its "l1" indices tagged with Side.l1. -/
def nodesOf (g : Group) : List Node :=
  g.l2.map (fun i => (Side.l2, i)) ++ g.l1.map (fun j => (Side.l1, j))

/-- g is the group of the connected component of node n: each side lists, in
ascending order and without duplicates, exactly the indices whose tagged nodes
are reachable from n in the link graph. -/
def GroupRepr (pairs : List (Nat × Nat)) (n : Node) (g : Group) : Prop :=
  (∀ i, i ∈ g.l2 ↔ Reach pairs n (Side.l2, i)) ∧
  (∀ j, j ∈ g.l1 ↔ Reach pairs n (Side.l1, j)) ∧
  List.Sorted (· ≤ ·) g.l2 ∧ g.l2.Nodup ∧
  List.Sorted (· ≤ ·) g.l1 ∧ g.l1.Nodup

end Align

namespace MainApi

/-- The record-separator sentinel of translate_lines (main.py line 121),
a single character. -/
def sentinel : Char := '␞'

/-- Python str.split(sep) for a one-character separator, on strings modelled
as character lists: fields between separator occurrences, the empty string
splitting to one empty field. -/
def splitOnChar (c : Char) : List Char → List (List Char)
  | [] => [[]]
  | a :: rest =>
    match splitOnChar c rest with
    | [] => [[]]
    | g :: gs => if a = c then [] :: g :: gs else (a :: g) :: gs

/-- Python str.splitlines() with the newline character as line boundary
(main.py line 128): every newline separates two lines, a trailing newline
produces no extra empty line, and the empty string has no lines. -/
def splitLines (s : List Char) : List (List Char) :=
  match s with
  | [] => []
  | _ =>
    let p := splitOnChar '\n' s
    if p.getLast? = some [] then p.dropLast else p

/-- translate_lines (main.py lines 102-131) after the external translation
call: texts are the input lines and resText models the service response
res.text; strings are modelled as character lists. The response is split on
the sentinel; if the field count disagrees with the input count, the fallback
splits on newlines, pads with empty strings and truncates to the input
count. -/
def translate_lines (texts : List (List Char)) (resText : List Char) :
    List (List Char) :=
  let out := splitOnChar sentinel resText
  if out.length ≠ texts.length then
    let fb := splitLines resText
    (fb ++ List.replicate (texts.length - fb.length) []).take texts.length
  else out

end MainApi

namespace Align

theorem mem_insertUniq {α : Type} [DecidableEq α] {l : List α} {x y : α} :
    y ∈ insertUniq l x ↔ y = x ∨ y ∈ l := by
  unfold insertUniq
  split
  · next h => exact ⟨fun hy => Or.inr hy, fun hy => hy.elim (fun e => e ▸ h) id⟩
  · simp [List.mem_append, or_comm]

theorem mem_gKeys {pairs : List (Nat × Nat)} {x : Node} :
    x ∈ gKeys pairs ↔ ∃ p, p ∈ pairs ∧ (x = (Side.l2, p.1) ∨ x = (Side.l1, p.2)) := by
  have main : ∀ (ps : List (Nat × Nat)) (acc : List Node),
      (x ∈ ps.foldl
          (fun ks p => insertUniq (insertUniq ks (Side.l2, p.1)) (Side.l1, p.2)) acc ↔
        x ∈ acc ∨ ∃ p, p ∈ ps ∧ (x = (Side.l2, p.1) ∨ x = (Side.l1, p.2))) := by
    intro ps
    induction ps with
    | nil => simp
    | cons p ps ih =>
      intro acc
      simp only [List.foldl_cons, ih, mem_insertUniq, List.mem_cons]
      constructor
      · rintro ((h | h | h) | ⟨q, hq, hx⟩)
        · exact Or.inr ⟨p, Or.inl rfl, Or.inr h⟩
        · exact Or.inr ⟨p, Or.inl rfl, Or.inl h⟩
        · exact Or.inl h
        · exact Or.inr ⟨q, Or.inr hq, hx⟩
      · rintro (h | ⟨q, hq | hq, hx⟩)
        · exact Or.inl (Or.inr (Or.inr h))
        · subst hq
          rcases hx with hx | hx
          · exact Or.inl (Or.inr (Or.inl hx))
          · exact Or.inl (Or.inl hx)
        · exact Or.inr ⟨q, hq, hx⟩
  simpa using main pairs []

theorem mem_gAdj {pairs : List (Nat × Nat)} {n x : Node} :
    x ∈ gAdj pairs n ↔ EdgeP pairs n x := by
  obtain ⟨s, i⟩ := n
  cases s with
  | l2 =>
    have main : ∀ (ps : List (Nat × Nat)) (acc : List Node),
        (x ∈ ps.foldl
            (fun acc p => if p.1 = i then insertUniq acc (Side.l1, p.2) else acc) acc ↔
          x ∈ acc ∨ ∃ p, p ∈ ps ∧ p.1 = i ∧ x = (Side.l1, p.2)) := by
      intro ps
      induction ps with
      | nil => simp
      | cons p ps ih =>
        intro acc
        simp only [List.foldl_cons]
        by_cases hp : p.1 = i
        · simp only [if_pos hp, ih, mem_insertUniq, List.mem_cons]
          constructor
          · rintro ((h | h) | ⟨q, hq, hqi, hx⟩)
            · exact Or.inr ⟨p, Or.inl rfl, hp, h⟩
            · exact Or.inl h
            · exact Or.inr ⟨q, Or.inr hq, hqi, hx⟩
          · rintro (h | ⟨q, hq | hq, hqi, hx⟩)
            · exact Or.inl (Or.inr h)
            · subst hq
              exact Or.inl (Or.inl hx)
            · exact Or.inr ⟨q, hq, hqi, hx⟩
        · simp only [if_neg hp, ih, List.mem_cons]
          constructor
          · rintro (h | ⟨q, hq, hqi, hx⟩)
            · exact Or.inl h
            · exact Or.inr ⟨q, Or.inr hq, hqi, hx⟩
          · rintro (h | ⟨q, hq | hq, hqi, hx⟩)
            · exact Or.inl h
            · subst hq
              exact absurd hqi hp
            · exact Or.inr ⟨q, hq, hqi, hx⟩
    rw [show gAdj pairs (Side.l2, i) =
        pairs.foldl (fun acc p => if p.1 = i then insertUniq acc (Side.l1, p.2) else acc) []
      from rfl, main pairs []]
    simp only [List.not_mem_nil, false_or]
    constructor
    · rintro ⟨p, hp, hpi, hx⟩
      exact Or.inl ⟨p, hp, by rw [hpi], hx⟩
    · rintro (⟨p, hp, ha, hb⟩ | ⟨p, hp, ha, hb⟩)
      · refine ⟨p, hp, ?_, hb⟩
        have := (Prod.mk.injEq _ _ _ _).mp ha
        exact this.2.symm
      · exact absurd ha (by simp)
  | l1 =>
    have main : ∀ (ps : List (Nat × Nat)) (acc : List Node),
        (x ∈ ps.foldl
            (fun acc p => if p.2 = i then insertUniq acc (Side.l2, p.1) else acc) acc ↔
          x ∈ acc ∨ ∃ p, p ∈ ps ∧ p.2 = i ∧ x = (Side.l2, p.1)) := by
      intro ps
      induction ps with
      | nil => simp
      | cons p ps ih =>
        intro acc
        simp only [List.foldl_cons]
        by_cases hp : p.2 = i
        · simp only [if_pos hp, ih, mem_insertUniq, List.mem_cons]
          constructor
          · rintro ((h | h) | ⟨q, hq, hqi, hx⟩)
            · exact Or.inr ⟨p, Or.inl rfl, hp, h⟩
            · exact Or.inl h
            · exact Or.inr ⟨q, Or.inr hq, hqi, hx⟩
          · rintro (h | ⟨q, hq | hq, hqi, hx⟩)
            · exact Or.inl (Or.inr h)
            · subst hq
              exact Or.inl (Or.inl hx)
            · exact Or.inr ⟨q, hq, hqi, hx⟩
        · simp only [if_neg hp, ih, List.mem_cons]
          constructor
          · rintro (h | ⟨q, hq, hqi, hx⟩)
            · exact Or.inl h
            · exact Or.inr ⟨q, Or.inr hq, hqi, hx⟩
          · rintro (h | ⟨q, hq | hq, hqi, hx⟩)
            · exact Or.inl h
            · subst hq
              exact absurd hqi hp
            · exact Or.inr ⟨q, hq, hqi, hx⟩
    rw [show gAdj pairs (Side.l1, i) =
        pairs.foldl (fun acc p => if p.2 = i then insertUniq acc (Side.l2, p.1) else acc) []
      from rfl, main pairs []]
    simp only [List.not_mem_nil, false_or]
    constructor
    · rintro ⟨p, hp, hpi, hx⟩
      exact Or.inr ⟨p, hp, by rw [hpi], hx⟩
    · rintro (⟨p, hp, ha, hb⟩ | ⟨p, hp, ha, hb⟩)
      · exact absurd ha (by simp)
      · refine ⟨p, hp, ?_, hb⟩
        have := (Prod.mk.injEq _ _ _ _).mp ha
        exact this.2.symm

theorem edgeP_symm {pairs : List (Nat × Nat)} {a b : Node}
    (h : EdgeP pairs a b) : EdgeP pairs b a := by
  rcases h with ⟨p, hp, ha, hb⟩ | ⟨p, hp, ha, hb⟩
  · exact Or.inr ⟨p, hp, hb, ha⟩
  · exact Or.inl ⟨p, hp, hb, ha⟩

theorem EdgeP.mem_left {pairs : List (Nat × Nat)} {a b : Node}
    (h : EdgeP pairs a b) : a ∈ gKeys pairs := by
  rcases h with ⟨p, hp, ha, _⟩ | ⟨p, hp, ha, _⟩
  · exact mem_gKeys.mpr ⟨p, hp, Or.inl ha⟩
  · exact mem_gKeys.mpr ⟨p, hp, Or.inr ha⟩

theorem EdgeP.mem_right {pairs : List (Nat × Nat)} {a b : Node}
    (h : EdgeP pairs a b) : b ∈ gKeys pairs := (edgeP_symm h).mem_left

theorem reach_symm {pairs : List (Nat × Nat)} {a b : Node}
    (h : Reach pairs a b) : Reach pairs b a :=
  Relation.ReflTransGen.symmetric (fun _ _ he => edgeP_symm he) h

theorem Reach.trans {pairs : List (Nat × Nat)} {a b c : Node}
    (h : Reach pairs a b) (h' : Reach pairs b c) : Reach pairs a c :=
  Relation.ReflTransGen.trans h h'

theorem reach_mem_gKeys {pairs : List (Nat × Nat)} {a b : Node}
    (h : Reach pairs a b) (ha : a ∈ gKeys pairs) : b ∈ gKeys pairs := by
  induction h with
  | refl => exact ha
  | tail _ he _ => exact he.mem_right

theorem mem_of_reach_closed {pairs : List (Nat × Nat)} {S : List Node} {a b : Node}
    (hS : ∀ a ∈ S, ∀ b, EdgeP pairs a b → b ∈ S)
    (h : Reach pairs a b) (ha : a ∈ S) : b ∈ S := by
  induction h with
  | refl => exact ha
  | tail _ he ih => exact hS _ ih _ he

theorem reach_iff_of_reach {pairs : List (Nat × Nat)} {n m x : Node}
    (hr : Reach pairs n m) : Reach pairs m x ↔ Reach pairs n x :=
  ⟨fun h => hr.trans h, fun h => (reach_symm hr).trans h⟩

theorem mem_sortDedup {l : List Nat} {x : Nat} : x ∈ sortDedup l ↔ x ∈ l :=
  ((List.perm_insertionSort _ _).mem_iff).trans List.mem_dedup

theorem nodup_sortDedup (l : List Nat) : (sortDedup l).Nodup :=
  ((List.perm_insertionSort _ _).nodup_iff).mpr (List.nodup_dedup l)

theorem sorted_sortDedup (l : List Nat) : List.Sorted (· ≤ ·) (sortDedup l) :=
  List.sorted_insertionSort _ _

theorem sortDedup_eq {l l' : List Nat} (h : ∀ x, x ∈ l ↔ x ∈ l') :
    sortDedup l = sortDedup l' := by
  apply List.eq_of_perm_of_sorted _ (sorted_sortDedup l) (sorted_sortDedup l')
  exact (List.perm_ext_iff_of_nodup (nodup_sortDedup l) (nodup_sortDedup l')).mpr
    (fun a => by rw [mem_sortDedup, mem_sortDedup, h])

theorem mem_sideIdx {s : Side} {comp : List Node} {i : Nat} :
    i ∈ sideIdx s comp ↔ (s, i) ∈ comp := by
  simp only [sideIdx, List.mem_filterMap]
  constructor
  · rintro ⟨⟨s', i'⟩, hn, hf⟩
    by_cases hs : s' = s
    · subst hs
      simp at hf
      exact hf ▸ hn
    · simp [hs] at hf
  · intro h
    exact ⟨(s, i), h, by simp⟩

theorem mem_mkGroup_l2 {comp : List Node} {i : Nat} :
    i ∈ (mkGroup comp).l2 ↔ (Side.l2, i) ∈ comp := by
  simp [mkGroup, mem_sortDedup, mem_sideIdx]

theorem mem_mkGroup_l1 {comp : List Node} {j : Nat} :
    j ∈ (mkGroup comp).l1 ↔ (Side.l1, j) ∈ comp := by
  simp [mkGroup, mem_sortDedup, mem_sideIdx]

theorem mem_nodesOf {g : Group} {x : Node} :
    x ∈ nodesOf g ↔ (x.1 = Side.l2 ∧ x.2 ∈ g.l2) ∨ (x.1 = Side.l1 ∧ x.2 ∈ g.l1) := by
  obtain ⟨s, i⟩ := x
  cases s <;> simp [nodesOf]

theorem mem_nodesOf_l2 {g : Group} {i : Nat} :
    (Side.l2, i) ∈ nodesOf g ↔ i ∈ g.l2 := by
  simp [mem_nodesOf]

theorem mem_nodesOf_l1 {g : Group} {j : Nat} :
    (Side.l1, j) ∈ nodesOf g ↔ j ∈ g.l1 := by
  simp [mem_nodesOf]

theorem mem_nodesOf_mkGroup {comp : List Node} {x : Node} :
    x ∈ nodesOf (mkGroup comp) ↔ x ∈ comp := by
  obtain ⟨s, i⟩ := x
  cases s
  · rw [mem_nodesOf_l2, mem_mkGroup_l2]
  · rw [mem_nodesOf_l1, mem_mkGroup_l1]

theorem nodesOf_nodup {g : Group} (h2 : g.l2.Nodup) (h1 : g.l1.Nodup) :
    (nodesOf g).Nodup := by
  have inj2 : Function.Injective (fun i : Nat => ((Side.l2, i) : Node)) :=
    fun a b h => by simpa using h
  have inj1 : Function.Injective (fun j : Nat => ((Side.l1, j) : Node)) :=
    fun a b h => by simpa using h
  rw [nodesOf, List.nodup_append]
  refine ⟨h2.map inj2, h1.map inj1, ?_⟩
  intro x hx hy
  simp only [List.mem_map] at hx hy
  obtain ⟨a, _, rfl⟩ := hx
  obtain ⟨b, _, hb⟩ := hy
  simp at hb

theorem GroupRepr.eq {pairs : List (Nat × Nat)} {n : Node} {g g' : Group}
    (h : GroupRepr pairs n g) (h' : GroupRepr pairs n g') : g = g' := by
  obtain ⟨h2, h1, hs2, hn2, hs1, hn1⟩ := h
  obtain ⟨h2', h1', hs2', hn2', hs1', hn1'⟩ := h'
  have e2 : g.l2 = g'.l2 :=
    List.eq_of_perm_of_sorted
      ((List.perm_ext_iff_of_nodup hn2 hn2').mpr fun a => by rw [h2, h2']) hs2 hs2'
  have e1 : g.l1 = g'.l1 :=
    List.eq_of_perm_of_sorted
      ((List.perm_ext_iff_of_nodup hn1 hn1').mpr fun a => by rw [h1, h1']) hs1 hs1'
  cases g
  cases g'
  congr 1

theorem GroupRepr.shift {pairs : List (Nat × Nat)} {n m : Node} {g : Group}
    (hr : Reach pairs n m) : GroupRepr pairs m g ↔ GroupRepr pairs n g := by
  unfold GroupRepr
  constructor
  · rintro ⟨a, b, c⟩
    exact ⟨fun i => (a i).trans (reach_iff_of_reach hr),
      fun j => (b j).trans (reach_iff_of_reach hr), c⟩
  · rintro ⟨a, b, c⟩
    exact ⟨fun i => (a i).trans (reach_iff_of_reach hr).symm,
      fun j => (b j).trans (reach_iff_of_reach hr).symm, c⟩

theorem pushNbs_spec : ∀ (nbs seen q : List Node),
    (∀ x ∈ q, x ∈ seen) → q.Nodup →
    ((∀ x, x ∈ (pushNbs nbs seen q).1 ↔ x ∈ seen ∨ x ∈ nbs) ∧
      (∀ x, x ∈ (pushNbs nbs seen q).2 ↔ x ∈ q ∨ (x ∈ nbs ∧ x ∉ seen)) ∧
      (pushNbs nbs seen q).2.Nodup ∧
      (∀ x ∈ (pushNbs nbs seen q).2, x ∈ (pushNbs nbs seen q).1)) := by
  intro nbs
  induction nbs with
  | nil =>
    intro seen q hq hnd
    exact ⟨fun x => by simp [pushNbs], fun x => by simp [pushNbs], hnd, hq⟩
  | cons nb rest ih =>
    intro seen q hq hnd
    simp only [pushNbs]
    by_cases h : nb ∈ seen
    · rw [if_pos h]
      obtain ⟨h1, h2, h3, h4⟩ := ih seen q hq hnd
      refine ⟨fun x => ?_, fun x => ?_, h3, h4⟩
      · rw [h1]
        simp only [List.mem_cons]
        constructor
        · rintro (hx | hx)
          · exact Or.inl hx
          · exact Or.inr (Or.inr hx)
        · rintro (hx | hx | hx)
          · exact Or.inl hx
          · exact Or.inl (hx ▸ h)
          · exact Or.inr hx
      · rw [h2]
        simp only [List.mem_cons]
        constructor
        · rintro (hx | ⟨hx, hns⟩)
          · exact Or.inl hx
          · exact Or.inr ⟨Or.inr hx, hns⟩
        · rintro (hx | ⟨hx | hx, hns⟩)
          · exact Or.inl hx
          · exact absurd (hx ▸ h) hns
          · exact Or.inr ⟨hx, hns⟩
    · rw [if_neg h]
      have hq' : ∀ x ∈ q ++ [nb], x ∈ nb :: seen := by
        intro x hx
        rcases List.mem_append.mp hx with hx | hx
        · exact List.mem_cons_of_mem _ (hq x hx)
        · simp only [List.mem_singleton] at hx
          exact hx ▸ List.mem_cons_self _ _
      have hnb : nb ∉ q := fun hc => h (hq nb hc)
      have hnd' : (q ++ [nb]).Nodup := by
        simp [List.nodup_append, hnd, hnb]
      obtain ⟨h1, h2, h3, h4⟩ := ih (nb :: seen) (q ++ [nb]) hq' hnd'
      refine ⟨fun x => ?_, fun x => ?_, h3, h4⟩
      · rw [h1]
        simp only [List.mem_cons]
        tauto
      · rw [h2]
        simp only [List.mem_append, List.mem_singleton, List.mem_cons, not_or,
          List.not_mem_nil, or_false]
        constructor
        · rintro ((hx | hx) | ⟨hx, hxn, hxs⟩)
          · exact Or.inl hx
          · exact Or.inr ⟨Or.inl hx, hx ▸ h⟩
          · exact Or.inr ⟨Or.inr hx, hxs⟩
        · rintro (hx | ⟨hx | hx, hxs⟩)
          · exact Or.inl (Or.inl hx)
          · exact Or.inl (Or.inr hx)
          · by_cases hxn : x = nb
            · exact Or.inl (Or.inr hxn)
            · exact Or.inr ⟨hx, hxn, hxs⟩

theorem bfsAux_spec (pairs : List (Nat × Nat)) (root : Node) :
    ∀ (fuel : Nat) (q comp seen seen₀ : List Node),
    (comp ++ q).Nodup →
    (∀ x, x ∈ seen ↔ x ∈ seen₀ ∨ x ∈ comp ∨ x ∈ q) →
    (∀ x ∈ comp ++ q, x ∉ seen₀) →
    (∀ x ∈ comp ++ q, x ∈ gKeys pairs) →
    (∀ x ∈ comp ++ q, Reach pairs root x) →
    (∀ a ∈ comp, ∀ b, EdgeP pairs a b → b ∈ seen) →
    ((gKeys pairs).length + 1 ≤ fuel + comp.length) →
    ((∀ x, x ∈ (bfsAux (gAdj pairs) fuel q comp seen).2 ↔
        x ∈ seen₀ ∨ x ∈ (bfsAux (gAdj pairs) fuel q comp seen).1) ∧
      (bfsAux (gAdj pairs) fuel q comp seen).1.Nodup ∧
      (∀ x ∈ comp ++ q, x ∈ (bfsAux (gAdj pairs) fuel q comp seen).1) ∧
      (∀ x ∈ (bfsAux (gAdj pairs) fuel q comp seen).1, x ∉ seen₀) ∧
      (∀ x ∈ (bfsAux (gAdj pairs) fuel q comp seen).1, x ∈ gKeys pairs) ∧
      (∀ x ∈ (bfsAux (gAdj pairs) fuel q comp seen).1, Reach pairs root x) ∧
      (∀ a ∈ (bfsAux (gAdj pairs) fuel q comp seen).1, ∀ b, EdgeP pairs a b →
        b ∈ (bfsAux (gAdj pairs) fuel q comp seen).2)) := by
  intro fuel
  induction fuel with
  | zero =>
    intro q comp seen seen₀ hnd hseen hdisj hsub hreach hclosed hfuel
    exfalso
    have hcompnd : comp.Nodup := (List.nodup_append.mp hnd).1
    have hcompsub : comp ⊆ gKeys pairs := fun x hx => hsub x (List.mem_append_left _ hx)
    have := (hcompnd.subperm hcompsub).length_le
    omega
  | succ fuel ih =>
    intro q comp seen seen₀ hnd hseen hdisj hsub hreach hclosed hfuel
    cases q with
    | nil =>
      rw [show bfsAux (gAdj pairs) (fuel + 1) [] comp seen = (comp, seen) from rfl]
      refine ⟨fun x => (hseen x).trans (by simp), ?_, by simp, ?_, ?_, ?_, ?_⟩
      · have := hnd
        rw [List.append_nil] at this
        exact this
      · intro x hx
        exact hdisj x (List.mem_append_left _ hx)
      · intro x hx
        exact hsub x (List.mem_append_left _ hx)
      · intro x hx
        exact hreach x (List.mem_append_left _ hx)
      · exact hclosed
    | cons n q' =>
      have hq' : ∀ x ∈ q', x ∈ seen :=
        fun x hx => (hseen x).mpr (Or.inr (Or.inr (List.mem_cons_of_mem _ hx)))
      have hconsnd : (n :: q').Nodup := (List.nodup_append.mp hnd).2.1
      have hq'nd : q'.Nodup := (List.nodup_cons.mp hconsnd).2
      obtain ⟨p1, p2, p3, p4⟩ := pushNbs_spec (gAdj pairs n) seen q' hq' hq'nd
      rw [show bfsAux (gAdj pairs) (fuel + 1) (n :: q') comp seen =
          bfsAux (gAdj pairs) fuel (pushNbs (gAdj pairs n) seen q').2 (comp ++ [n])
            (pushNbs (gAdj pairs n) seen q').1 from rfl]
      have hnmem : n ∈ seen := (hseen n).mpr (Or.inr (Or.inr (List.mem_cons_self _ _)))
      have hcompseen : ∀ x ∈ comp, x ∈ seen := fun x hx => (hseen x).mpr (Or.inr (Or.inl hx))
      obtain ⟨hcompnd, _, hdisj0⟩ := List.nodup_append.mp hnd
      have hn_notin_comp : n ∉ comp := fun hc => hdisj0 hc (List.mem_cons_self _ _)
      have hn_notin_q' : n ∉ q' := (List.nodup_cons.mp hconsnd).1
      have hnd' : ((comp ++ [n]) ++ (pushNbs (gAdj pairs n) seen q').2).Nodup := by
        rw [List.nodup_append]
        refine ⟨?_, p3, ?_⟩
        · rw [List.nodup_append]
          refine ⟨hcompnd, List.nodup_singleton n, ?_⟩
          intro a ha hb
          rw [List.mem_singleton] at hb
          exact hn_notin_comp (hb ▸ ha)
        · intro a ha hb
          rcases (p2 a).mp hb with hbq | ⟨_, hbs⟩
          · rcases List.mem_append.mp ha with hac | han
            · exact hdisj0 hac (List.mem_cons_of_mem _ hbq)
            · rw [List.mem_singleton] at han
              exact hn_notin_q' (han ▸ hbq)
          · rcases List.mem_append.mp ha with hac | han
            · exact hbs (hcompseen a hac)
            · rw [List.mem_singleton] at han
              exact hbs (han ▸ hnmem)
      have hseen_case : ∀ x, x ∈ seen →
          x ∈ seen₀ ∨ x ∈ comp ++ [n] ∨ x ∈ (pushNbs (gAdj pairs n) seen q').2 := by
        intro x hx
        rcases (hseen x).mp hx with h0 | hc | hcons
        · exact Or.inl h0
        · exact Or.inr (Or.inl (List.mem_append_left _ hc))
        · rcases List.mem_cons.mp hcons with rfl | hqx
          · exact Or.inr (Or.inl (List.mem_append_right _ (List.mem_singleton.mpr rfl)))
          · exact Or.inr (Or.inr ((p2 x).mpr (Or.inl hqx)))
      have hseen' : ∀ x, x ∈ (pushNbs (gAdj pairs n) seen q').1 ↔
          x ∈ seen₀ ∨ x ∈ comp ++ [n] ∨ x ∈ (pushNbs (gAdj pairs n) seen q').2 := by
        intro x
        rw [p1 x]
        constructor
        · rintro (hx | hx)
          · exact hseen_case x hx
          · by_cases hs : x ∈ seen
            · exact hseen_case x hs
            · exact Or.inr (Or.inr ((p2 x).mpr (Or.inr ⟨hx, hs⟩)))
        · rintro (h0 | hcn | hs2)
          · exact Or.inl ((hseen x).mpr (Or.inl h0))
          · rcases List.mem_append.mp hcn with hc | hn1
            · exact Or.inl (hcompseen x hc)
            · rw [List.mem_singleton] at hn1
              exact Or.inl (hn1 ▸ hnmem)
          · exact (p1 x).mp (p4 x hs2)
      have hdisj' : ∀ x ∈ (comp ++ [n]) ++ (pushNbs (gAdj pairs n) seen q').2,
          x ∉ seen₀ := by
        intro x hx
        rcases List.mem_append.mp hx with hcn | hs2
        · rcases List.mem_append.mp hcn with hc | hn1
          · exact hdisj x (List.mem_append_left _ hc)
          · rw [List.mem_singleton] at hn1
            exact hn1 ▸ hdisj n (List.mem_append_right _ (List.mem_cons_self _ _))
        · rcases (p2 x).mp hs2 with hqx | ⟨_, hns⟩
          · exact hdisj x (List.mem_append_right _ (List.mem_cons_of_mem _ hqx))
          · exact fun h0 => hns ((hseen x).mpr (Or.inl h0))
      have hsub' : ∀ x ∈ (comp ++ [n]) ++ (pushNbs (gAdj pairs n) seen q').2,
          x ∈ gKeys pairs := by
        intro x hx
        rcases List.mem_append.mp hx with hcn | hs2
        · rcases List.mem_append.mp hcn with hc | hn1
          · exact hsub x (List.mem_append_left _ hc)
          · rw [List.mem_singleton] at hn1
            exact hn1 ▸ hsub n (List.mem_append_right _ (List.mem_cons_self _ _))
        · rcases (p2 x).mp hs2 with hqx | ⟨hadj, _⟩
          · exact hsub x (List.mem_append_right _ (List.mem_cons_of_mem _ hqx))
          · exact (mem_gAdj.mp hadj).mem_right
      have hreach' : ∀ x ∈ (comp ++ [n]) ++ (pushNbs (gAdj pairs n) seen q').2,
          Reach pairs root x := by
        intro x hx
        rcases List.mem_append.mp hx with hcn | hs2
        · rcases List.mem_append.mp hcn with hc | hn1
          · exact hreach x (List.mem_append_left _ hc)
          · rw [List.mem_singleton] at hn1
            exact hn1 ▸ hreach n (List.mem_append_right _ (List.mem_cons_self _ _))
        · rcases (p2 x).mp hs2 with hqx | ⟨hadj, _⟩
          · exact hreach x (List.mem_append_right _ (List.mem_cons_of_mem _ hqx))
          · exact Relation.ReflTransGen.tail
              (hreach n (List.mem_append_right _ (List.mem_cons_self _ _)))
              (mem_gAdj.mp hadj)
      have hclosed' : ∀ a ∈ comp ++ [n], ∀ b, EdgeP pairs a b →
          b ∈ (pushNbs (gAdj pairs n) seen q').1 := by
        intro a ha b he
        rcases List.mem_append.mp ha with hc | hn1
        · exact (p1 b).mpr (Or.inl (hclosed a hc b he))
        · rw [List.mem_singleton] at hn1
          subst hn1
          exact (p1 b).mpr (Or.inr (mem_gAdj.mpr he))
      have hfuel' : (gKeys pairs).length + 1 ≤ fuel + (comp ++ [n]).length := by
        rw [List.length_append]
        simp only [List.length_singleton]
        omega
      obtain ⟨c1, c2, c3, c4, c5, c6, c7⟩ :=
        ih (pushNbs (gAdj pairs n) seen q').2 (comp ++ [n])
          (pushNbs (gAdj pairs n) seen q').1 seen₀
          hnd' hseen' hdisj' hsub' hreach' hclosed' hfuel'
      refine ⟨c1, c2, ?_, c4, c5, c6, c7⟩
      intro x hx
      apply c3
      rcases List.mem_append.mp hx with hc | hcons
      · exact List.mem_append_left _ (List.mem_append_left _ hc)
      · rcases List.mem_cons.mp hcons with rfl | hqx
        · exact List.mem_append_left _ (List.mem_append_right _ (List.mem_singleton.mpr rfl))
        · exact List.mem_append_right _ ((p2 x).mpr (Or.inl hqx))

theorem bfs_run (pairs : List (Nat × Nat)) (root : Node) (seen₀ : List Node) (fuel : Nat)
    (hrk : root ∈ gKeys pairs)
    (hr0 : root ∉ seen₀)
    (hcl : ∀ a ∈ seen₀, ∀ b, EdgeP pairs a b → b ∈ seen₀)
    (hfuel : (gKeys pairs).length + 1 ≤ fuel) :
    ((∀ x, x ∈ (bfsAux (gAdj pairs) fuel [root] [] (root :: seen₀)).1 ↔
        Reach pairs root x) ∧
      (bfsAux (gAdj pairs) fuel [root] [] (root :: seen₀)).1.Nodup ∧
      (∀ x, x ∈ (bfsAux (gAdj pairs) fuel [root] [] (root :: seen₀)).2 ↔
        x ∈ seen₀ ∨ x ∈ (bfsAux (gAdj pairs) fuel [root] [] (root :: seen₀)).1) ∧
      (∀ x ∈ (bfsAux (gAdj pairs) fuel [root] [] (root :: seen₀)).1, x ∉ seen₀)) := by
  obtain ⟨c1, c2, c3, c4, c5, c6, c7⟩ :=
    bfsAux_spec pairs root fuel [root] [] (root :: seen₀) seen₀
      (by simp)
      (fun x => by simp only [List.mem_cons, List.not_mem_nil, false_or, or_false]; tauto)
      (by intro x hx; simp only [List.nil_append, List.mem_singleton] at hx; exact hx ▸ hr0)
      (by intro x hx; simp only [List.nil_append, List.mem_singleton] at hx; exact hx ▸ hrk)
      (by
        intro x hx
        simp only [List.nil_append, List.mem_singleton] at hx
        exact hx ▸ Relation.ReflTransGen.refl)
      (by intro a ha; simp at ha)
      (by simpa using hfuel)
  refine ⟨fun x => ⟨fun hx => c6 x hx, fun hx => ?_⟩, c2, c1, c4⟩
  induction hx with
  | refl => exact c3 root (by simp)
  | tail hsteps hedge ihx =>
    rcases (c1 _).mp (c7 _ ihx _ hedge) with h0 | hc
    · exact absurd (hcl _ h0 _ (edgeP_symm hedge)) (c4 _ ihx)
    · exact hc

theorem componentsAux_spec (pairs : List (Nat × Nat)) (fuel : Nat)
    (hfuel : (gKeys pairs).length + 1 ≤ fuel) :
    ∀ (keyRest seen : List Node),
    (∀ a ∈ seen, ∀ b, EdgeP pairs a b → b ∈ seen) →
    (∀ n ∈ keyRest, n ∈ gKeys pairs) →
    ((∀ g, g ∈ componentsAux (gAdj pairs) fuel keyRest seen ↔
        ∃ n, n ∈ keyRest ∧ n ∉ seen ∧ GroupRepr pairs n g) ∧
      (componentsAux (gAdj pairs) fuel keyRest seen).Nodup ∧
      (∀ x, x ∈ (componentsAux (gAdj pairs) fuel keyRest seen).flatMap nodesOf ↔
        (x ∉ seen ∧ ∃ n ∈ keyRest, Reach pairs n x)) ∧
      ((componentsAux (gAdj pairs) fuel keyRest seen).flatMap nodesOf).Nodup) := by
  intro keyRest
  induction keyRest with
  | nil =>
    intro seen hcl hkeys
    simp [componentsAux]
  | cons n rest ih =>
    intro seen hcl hkeys
    by_cases hn : n ∈ seen
    · rw [show componentsAux (gAdj pairs) fuel (n :: rest) seen
          = componentsAux (gAdj pairs) fuel rest seen from by
        simp [componentsAux, hn]]
      obtain ⟨i1, i2, i3, i4⟩ := ih seen hcl (fun m hm => hkeys m (List.mem_cons_of_mem _ hm))
      refine ⟨fun g => (i1 g).trans ?_, i2, fun x => (i3 x).trans ?_, i4⟩
      · constructor
        · rintro ⟨m, hm, hms, hrepr⟩
          exact ⟨m, List.mem_cons_of_mem _ hm, hms, hrepr⟩
        · rintro ⟨m, hm, hms, hrepr⟩
          rcases List.mem_cons.mp hm with rfl | hm'
          · exact absurd hn hms
          · exact ⟨m, hm', hms, hrepr⟩
      · constructor
        · rintro ⟨hxs, m, hm, hr⟩
          exact ⟨hxs, m, List.mem_cons_of_mem _ hm, hr⟩
        · rintro ⟨hxs, m, hm, hr⟩
          rcases List.mem_cons.mp hm with rfl | hm'
          · exact absurd (mem_of_reach_closed hcl hr hn) hxs
          · exact ⟨hxs, m, hm', hr⟩
    · rw [show componentsAux (gAdj pairs) fuel (n :: rest) seen
          = mkGroup (bfsAux (gAdj pairs) fuel [n] [] (n :: seen)).1 ::
            componentsAux (gAdj pairs) fuel rest
              (bfsAux (gAdj pairs) fuel [n] [] (n :: seen)).2 from by
        simp [componentsAux, hn]]
      obtain ⟨b1, b2, b3, b4⟩ :=
        bfs_run pairs n seen fuel (hkeys n (List.mem_cons_self _ _)) hn hcl hfuel
      have hcl' : ∀ a ∈ (bfsAux (gAdj pairs) fuel [n] [] (n :: seen)).2, ∀ b,
          EdgeP pairs a b → b ∈ (bfsAux (gAdj pairs) fuel [n] [] (n :: seen)).2 := by
        intro a ha b he
        rcases (b3 a).mp ha with has | hac
        · exact (b3 b).mpr (Or.inl (hcl a has b he))
        · exact (b3 b).mpr
            (Or.inr ((b1 b).mpr (Relation.ReflTransGen.tail ((b1 a).mp hac) he)))
      obtain ⟨i1, i2, i3, i4⟩ := ih (bfsAux (gAdj pairs) fuel [n] [] (n :: seen)).2 hcl'
        (fun m hm => hkeys m (List.mem_cons_of_mem _ hm))
      have hrepr : GroupRepr pairs n
          (mkGroup (bfsAux (gAdj pairs) fuel [n] [] (n :: seen)).1) := by
        refine ⟨fun i => ?_, fun j => ?_, sorted_sortDedup _, nodup_sortDedup _,
          sorted_sortDedup _, nodup_sortDedup _⟩
        · rw [mem_mkGroup_l2, b1]
        · rw [mem_mkGroup_l1, b1]
      refine ⟨?_, ?_, ?_, ?_⟩
      · intro g
        simp only [List.mem_cons]
        constructor
        · rintro (rfl | hg)
          · exact ⟨n, Or.inl rfl, hn, hrepr⟩
          · obtain ⟨m, hm, hms, hr⟩ := (i1 g).mp hg
            exact ⟨m, Or.inr hm,
              fun hc => hms ((b3 m).mpr (Or.inl hc)), hr⟩
        · rintro ⟨m, hm, hms, hr⟩
          by_cases hreachnm : Reach pairs n m
          · exact Or.inl (((GroupRepr.shift hreachnm).mp hr).eq hrepr)
          · right
            apply (i1 g).mpr
            rcases hm with rfl | hm'
            · exact absurd Relation.ReflTransGen.refl hreachnm
            · refine ⟨m, hm', ?_, hr⟩
              intro hc
              rcases (b3 m).mp hc with hcs | hcc
              · exact hms hcs
              · exact hreachnm ((b1 m).mp hcc)
      · rw [List.nodup_cons]
        refine ⟨?_, i2⟩
        intro hg0
        obtain ⟨m, hm, hms, hr⟩ := (i1 _).mp hg0
        have hncomp : n ∈ (bfsAux (gAdj pairs) fuel [n] [] (n :: seen)).1 :=
          (b1 n).mpr Relation.ReflTransGen.refl
        obtain ⟨s, idx⟩ := n
        cases s
        · have hidx : idx ∈ (mkGroup
              (bfsAux (gAdj pairs) fuel [(Side.l2, idx)] [] ((Side.l2, idx) :: seen)).1).l2 :=
            mem_mkGroup_l2.mpr hncomp
          have hreachm := (hr.1 idx).mp hidx
          exact hms ((b3 m).mpr (Or.inr ((b1 m).mpr (reach_symm hreachm))))
        · have hidx : idx ∈ (mkGroup
              (bfsAux (gAdj pairs) fuel [(Side.l1, idx)] [] ((Side.l1, idx) :: seen)).1).l1 :=
            mem_mkGroup_l1.mpr hncomp
          have hreachm := (hr.2.1 idx).mp hidx
          exact hms ((b3 m).mpr (Or.inr ((b1 m).mpr (reach_symm hreachm))))
      · intro x
        simp only [List.flatMap_cons, List.mem_append]
        constructor
        · rintro (hx0 | hxr)
          · have hxc := mem_nodesOf_mkGroup.mp hx0
            exact ⟨b4 x hxc, n, List.mem_cons_self _ _, (b1 x).mp hxc⟩
          · obtain ⟨hxs, m, hm, hr⟩ := (i3 x).mp hxr
            exact ⟨fun hc => hxs ((b3 x).mpr (Or.inl hc)), m,
              List.mem_cons_of_mem _ hm, hr⟩
        · rintro ⟨hxs, m, hm, hr⟩
          rcases List.mem_cons.mp hm with rfl | hm'
          · exact Or.inl (mem_nodesOf_mkGroup.mpr ((b1 x).mpr hr))
          · by_cases hxc : x ∈ (bfsAux (gAdj pairs) fuel [n] [] (n :: seen)).1
            · exact Or.inl (mem_nodesOf_mkGroup.mpr hxc)
            · refine Or.inr ((i3 x).mpr ⟨?_, m, hm', hr⟩)
              intro hc
              rcases (b3 x).mp hc with hcs | hcc
              · exact hxs hcs
              · exact hxc hcc
      · simp only [List.flatMap_cons]
        rw [List.nodup_append]
        refine ⟨nodesOf_nodup (nodup_sortDedup _) (nodup_sortDedup _), i4, ?_⟩
        intro x hx0 hxr
        have hxc := mem_nodesOf_mkGroup.mp hx0
        obtain ⟨hxs, _, _, _⟩ := (i3 x).mp hxr
        exact hxs ((b3 x).mpr (Or.inr hxc))

theorem flatMap_sublist {α β : Type} (l : List α) (f g : α → List β)
    (h : ∀ a ∈ l, (f a).Sublist (g a)) : (l.flatMap f).Sublist (l.flatMap g) := by
  induction l with
  | nil => simp
  | cons a l ih =>
    simp only [List.flatMap_cons]
    exact (h a (List.mem_cons_self _ _)).append
      (ih (fun b hb => h b (List.mem_cons_of_mem _ hb)))

theorem mem_components {pairs : List (Nat × Nat)} {g : Group} :
    g ∈ components pairs ↔ ∃ n ∈ gKeys pairs, GroupRepr pairs n g := by
  obtain ⟨i1, _, _, _⟩ := componentsAux_spec pairs ((gKeys pairs).length + 1)
    (le_refl _) (gKeys pairs) [] (by simp) (fun _ hn => hn)
  rw [components, i1 g]
  simp

theorem nodup_components (pairs : List (Nat × Nat)) : (components pairs).Nodup := by
  obtain ⟨_, i2, _, _⟩ := componentsAux_spec pairs ((gKeys pairs).length + 1)
    (le_refl _) (gKeys pairs) [] (by simp) (fun _ hn => hn)
  rw [components]
  exact i2

theorem mem_components_nodes {pairs : List (Nat × Nat)} {x : Node} :
    x ∈ (components pairs).flatMap nodesOf ↔ x ∈ gKeys pairs := by
  obtain ⟨_, _, i3, _⟩ := componentsAux_spec pairs ((gKeys pairs).length + 1)
    (le_refl _) (gKeys pairs) [] (by simp) (fun _ hn => hn)
  rw [components, i3 x]
  constructor
  · rintro ⟨_, n, hn, hr⟩
    exact reach_mem_gKeys hr hn
  · intro hx
    exact ⟨by simp, x, hx, Relation.ReflTransGen.refl⟩

theorem nodup_components_nodes (pairs : List (Nat × Nat)) :
    ((components pairs).flatMap nodesOf).Nodup := by
  obtain ⟨_, _, _, i4⟩ := componentsAux_spec pairs ((gKeys pairs).length + 1)
    (le_refl _) (gKeys pairs) [] (by simp) (fun _ hn => hn)
  rw [components]
  exact i4

theorem mem_components_l2 {pairs : List (Nat × Nat)} {i : Nat} :
    i ∈ (components pairs).flatMap Group.l2 ↔ ∃ j, (i, j) ∈ pairs := by
  have h1 : i ∈ (components pairs).flatMap Group.l2 ↔
      (Side.l2, i) ∈ (components pairs).flatMap nodesOf := by
    simp only [List.mem_flatMap]
    constructor
    · rintro ⟨g, hg, hi⟩
      exact ⟨g, hg, mem_nodesOf_l2.mpr hi⟩
    · rintro ⟨g, hg, hi⟩
      exact ⟨g, hg, mem_nodesOf_l2.mp hi⟩
  rw [h1, mem_components_nodes, mem_gKeys]
  constructor
  · rintro ⟨⟨a, b⟩, hp, hx | hx⟩
    · simp only [Prod.mk.injEq, true_and] at hx
      subst hx
      exact ⟨b, hp⟩
    · exact absurd hx (by simp)
  · rintro ⟨j, hj⟩
    exact ⟨(i, j), hj, Or.inl rfl⟩

theorem mem_components_l1 {pairs : List (Nat × Nat)} {j : Nat} :
    j ∈ (components pairs).flatMap Group.l1 ↔ ∃ i, (i, j) ∈ pairs := by
  have h1 : j ∈ (components pairs).flatMap Group.l1 ↔
      (Side.l1, j) ∈ (components pairs).flatMap nodesOf := by
    simp only [List.mem_flatMap]
    constructor
    · rintro ⟨g, hg, hj⟩
      exact ⟨g, hg, mem_nodesOf_l1.mpr hj⟩
    · rintro ⟨g, hg, hj⟩
      exact ⟨g, hg, mem_nodesOf_l1.mp hj⟩
  rw [h1, mem_components_nodes, mem_gKeys]
  constructor
  · rintro ⟨⟨a, b⟩, hp, hx | hx⟩
    · exact absurd hx (by simp)
    · simp only [Prod.mk.injEq, true_and] at hx
      subst hx
      exact ⟨a, hp⟩
  · rintro ⟨i, hi⟩
    exact ⟨(i, j), hi, Or.inr rfl⟩

theorem nodup_components_l2 (pairs : List (Nat × Nat)) :
    ((components pairs).flatMap Group.l2).Nodup := by
  have hsub : ((components pairs).flatMap
        (fun g => g.l2.map (fun i => ((Side.l2, i) : Node)))).Sublist
      ((components pairs).flatMap nodesOf) :=
    flatMap_sublist _ _ _ (fun g _ => List.sublist_append_left _ _)
  have hnodup := (nodup_components_nodes pairs).sublist hsub
  rw [← List.map_flatMap] at hnodup
  exact hnodup.of_map _

theorem nodup_components_l1 (pairs : List (Nat × Nat)) :
    ((components pairs).flatMap Group.l1).Nodup := by
  have hsub : ((components pairs).flatMap
        (fun g => g.l1.map (fun j => ((Side.l1, j) : Node)))).Sublist
      ((components pairs).flatMap nodesOf) :=
    flatMap_sublist _ _ _ (fun g _ => List.sublist_append_right _ _)
  have hnodup := (nodup_components_nodes pairs).sublist hsub
  rw [← List.map_flatMap] at hnodup
  exact hnodup.of_map _

theorem components_sorted {pairs : List (Nat × Nat)} {g : Group}
    (hg : g ∈ components pairs) :
    List.Sorted (· < ·) g.l2 ∧ List.Sorted (· < ·) g.l1 := by
  obtain ⟨n, -, -, -, hs2, hn2, hs1, hn1⟩ := mem_components.mp hg
  exact ⟨hs2.lt_of_le hn2, hs1.lt_of_le hn1⟩

theorem components_nonempty_side {pairs : List (Nat × Nat)} {g : Group}
    (hg : g ∈ components pairs) : g.l2 ≠ [] ∨ g.l1 ≠ [] := by
  obtain ⟨n, hn, hr⟩ := mem_components.mp hg
  obtain ⟨s, idx⟩ := n
  cases s
  · exact Or.inl (List.ne_nil_of_mem ((hr.1 idx).mpr Relation.ReflTransGen.refl))
  · exact Or.inr (List.ne_nil_of_mem ((hr.2.1 idx).mpr Relation.ReflTransGen.refl))

theorem components_link {pairs : List (Nat × Nat)} {i j : Nat}
    (hp : (i, j) ∈ pairs) : ∃ g ∈ components pairs, i ∈ g.l2 ∧ j ∈ g.l1 := by
  have hkey : (Side.l2, i) ∈ gKeys pairs := mem_gKeys.mpr ⟨(i, j), hp, Or.inl rfl⟩
  obtain ⟨g, hg, hx⟩ := List.mem_flatMap.mp (mem_components_nodes.mpr hkey)
  obtain ⟨n, hn, hr⟩ := mem_components.mp hg
  have hil2 : i ∈ g.l2 := mem_nodesOf_l2.mp hx
  have hreachn : Reach pairs n (Side.l2, i) := (hr.1 i).mp hil2
  have hedge : EdgeP pairs (Side.l2, i) (Side.l1, j) := Or.inl ⟨(i, j), hp, rfl, rfl⟩
  exact ⟨g, hg, hil2, (hr.2.1 j).mpr (Relation.ReflTransGen.tail hreachn hedge)⟩

theorem align_tokens_eq {pairs : List (Nat × Nat)} {lenA lenB : Nat}
    (hA : lenA ≠ 0) (hB : lenB ≠ 0) :
    align_tokens pairs lenA lenB =
      components pairs
      ++ ((List.range lenA).filter
          (fun i => decide (i ∉ (components pairs).flatMap Group.l2))).map
          (fun i => ⟨[i], []⟩)
      ++ ((List.range lenB).filter
          (fun j => decide (j ∉ (components pairs).flatMap Group.l1))).map
          (fun j => ⟨[], [j]⟩) := by
  rw [align_tokens, if_neg (by simp [hA, hB])]

theorem singA_l2 (lst : List Nat) :
    ((lst.map (fun i => (⟨[i], []⟩ : Group))).flatMap Group.l2) = lst := by
  induction lst with
  | nil => simp
  | cons a l ih => simp [ih]

theorem singA_l1 (lst : List Nat) :
    ((lst.map (fun i => (⟨[i], []⟩ : Group))).flatMap Group.l1) = [] := by
  induction lst with
  | nil => simp
  | cons a l ih => simp [ih]

theorem singB_l2 (lst : List Nat) :
    ((lst.map (fun j => (⟨[], [j]⟩ : Group))).flatMap Group.l2) = [] := by
  induction lst with
  | nil => simp
  | cons a l ih => simp [ih]

theorem singB_l1 (lst : List Nat) :
    ((lst.map (fun j => (⟨[], [j]⟩ : Group))).flatMap Group.l1) = lst := by
  induction lst with
  | nil => simp
  | cons a l ih => simp [ih]

theorem gKeys_append_dup {pairs : List (Nat × Nat)} {p : Nat × Nat} (hp : p ∈ pairs) :
    gKeys (pairs ++ [p]) = gKeys pairs := by
  have h1 : (Side.l2, p.1) ∈ gKeys pairs := mem_gKeys.mpr ⟨p, hp, Or.inl rfl⟩
  have h3 : (Side.l1, p.2) ∈ gKeys pairs := mem_gKeys.mpr ⟨p, hp, Or.inr rfl⟩
  have hstep : gKeys (pairs ++ [p]) =
      insertUniq (insertUniq (gKeys pairs) (Side.l2, p.1)) (Side.l1, p.2) := by
    simp only [gKeys, List.foldl_append, List.foldl_cons, List.foldl_nil]
  have h2 : insertUniq (gKeys pairs) (Side.l2, p.1) = gKeys pairs := by
    rw [insertUniq, if_pos h1]
  rw [hstep, h2, insertUniq, if_pos h3]

theorem gAdj_append_dup {pairs : List (Nat × Nat)} {p : Nat × Nat} (hp : p ∈ pairs) :
    gAdj (pairs ++ [p]) = gAdj pairs := by
  funext n
  obtain ⟨s, idx⟩ := n
  cases s
  · have hstep : gAdj (pairs ++ [p]) (Side.l2, idx) =
        (if p.1 = idx then insertUniq (gAdj pairs (Side.l2, idx)) (Side.l1, p.2)
         else gAdj pairs (Side.l2, idx)) := by
      simp only [gAdj, List.foldl_append, List.foldl_cons, List.foldl_nil]
    rw [hstep]
    by_cases hpi : p.1 = idx
    · rw [if_pos hpi]
      have hmem : (Side.l1, p.2) ∈ gAdj pairs (Side.l2, idx) :=
        mem_gAdj.mpr (Or.inl ⟨p, hp, by rw [hpi], rfl⟩)
      rw [insertUniq, if_pos hmem]
    · rw [if_neg hpi]
  · have hstep : gAdj (pairs ++ [p]) (Side.l1, idx) =
        (if p.2 = idx then insertUniq (gAdj pairs (Side.l1, idx)) (Side.l2, p.1)
         else gAdj pairs (Side.l1, idx)) := by
      simp only [gAdj, List.foldl_append, List.foldl_cons, List.foldl_nil]
    rw [hstep]
    by_cases hpi : p.2 = idx
    · rw [if_pos hpi]
      have hmem : (Side.l2, p.1) ∈ gAdj pairs (Side.l1, idx) :=
        mem_gAdj.mpr (Or.inr ⟨p, hp, by rw [hpi], rfl⟩)
      rw [insertUniq, if_pos hmem]
    · rw [if_neg hpi]

theorem components_append_dup {pairs : List (Nat × Nat)} {p : Nat × Nat}
    (hp : p ∈ pairs) : components (pairs ++ [p]) = components pairs := by
  rw [components, components, gKeys_append_dup hp, gAdj_append_dup hp]

theorem EdgeP_iff_of_mem {pairs pairs' : List (Nat × Nat)}
    (hmem : ∀ p, p ∈ pairs ↔ p ∈ pairs') {a b : Node} :
    EdgeP pairs a b ↔ EdgeP pairs' a b := by
  unfold EdgeP
  constructor
  · rintro (⟨p, hp, ha, hb⟩ | ⟨p, hp, ha, hb⟩)
    · exact Or.inl ⟨p, (hmem p).mp hp, ha, hb⟩
    · exact Or.inr ⟨p, (hmem p).mp hp, ha, hb⟩
  · rintro (⟨p, hp, ha, hb⟩ | ⟨p, hp, ha, hb⟩)
    · exact Or.inl ⟨p, (hmem p).mpr hp, ha, hb⟩
    · exact Or.inr ⟨p, (hmem p).mpr hp, ha, hb⟩

theorem Reach_iff_of_mem {pairs pairs' : List (Nat × Nat)}
    (hmem : ∀ p, p ∈ pairs ↔ p ∈ pairs') {a b : Node} :
    Reach pairs a b ↔ Reach pairs' a b := by
  constructor
  · intro h
    induction h with
    | refl => exact Relation.ReflTransGen.refl
    | tail _ he ih =>
      exact Relation.ReflTransGen.tail ih ((EdgeP_iff_of_mem hmem).mp he)
  · intro h
    induction h with
    | refl => exact Relation.ReflTransGen.refl
    | tail _ he ih =>
      exact Relation.ReflTransGen.tail ih ((EdgeP_iff_of_mem hmem).mpr he)

theorem gKeys_mem_iff {pairs pairs' : List (Nat × Nat)}
    (hmem : ∀ p, p ∈ pairs ↔ p ∈ pairs') {x : Node} :
    x ∈ gKeys pairs ↔ x ∈ gKeys pairs' := by
  rw [mem_gKeys, mem_gKeys]
  constructor
  · rintro ⟨p, hp, hx⟩
    exact ⟨p, (hmem p).mp hp, hx⟩
  · rintro ⟨p, hp, hx⟩
    exact ⟨p, (hmem p).mpr hp, hx⟩

theorem GroupRepr_iff_of_mem {pairs pairs' : List (Nat × Nat)}
    (hmem : ∀ p, p ∈ pairs ↔ p ∈ pairs') {n : Node} {g : Group} :
    GroupRepr pairs n g ↔ GroupRepr pairs' n g := by
  unfold GroupRepr
  constructor
  · rintro ⟨a, b, c⟩
    exact ⟨fun i => (a i).trans (Reach_iff_of_mem hmem),
      fun j => (b j).trans (Reach_iff_of_mem hmem), c⟩
  · rintro ⟨a, b, c⟩
    exact ⟨fun i => (a i).trans (Reach_iff_of_mem hmem).symm,
      fun j => (b j).trans (Reach_iff_of_mem hmem).symm, c⟩

theorem components_perm_of_mem {pairs pairs' : List (Nat × Nat)}
    (hmem : ∀ p, p ∈ pairs ↔ p ∈ pairs') :
    List.Perm (components pairs) (components pairs') := by
  rw [List.perm_ext_iff_of_nodup (nodup_components _) (nodup_components _)]
  intro g
  rw [mem_components, mem_components]
  constructor
  · rintro ⟨n, hn, hr⟩
    exact ⟨n, (gKeys_mem_iff hmem).mp hn, (GroupRepr_iff_of_mem hmem).mp hr⟩
  · rintro ⟨n, hn, hr⟩
    exact ⟨n, (gKeys_mem_iff hmem).mpr hn, (GroupRepr_iff_of_mem hmem).mpr hr⟩

theorem firstPresentPref_eq (d : Candidates) :
    ∀ keys : List String, firstPresentPref d keys =
      (keys.find? (fun k => decide ((d.lookup k).getD [] ≠ []))).map
        (fun k => (d.lookup k).getD []) := by
  intro keys
  induction keys with
  | nil => simp [firstPresentPref]
  | cons k ks ih =>
    cases hd : d.lookup k with
    | none =>
      rw [show firstPresentPref d (k :: ks) = firstPresentPref d ks from by
        simp [firstPresentPref, hd]]
      rw [List.find?_cons_of_neg _ (by simp [hd]), ih]
    | some v =>
      by_cases hv : v = []
      · subst hv
        rw [show firstPresentPref d (k :: ks) = firstPresentPref d ks from by
          simp [firstPresentPref, hd]]
        rw [List.find?_cons_of_neg _ (by simp [hd]), ih]
      · rw [show firstPresentPref d (k :: ks) = some v from by
          simp [firstPresentPref, hd, hv]]
        rw [List.find?_cons_of_pos _ (by simp [hd, hv])]
        simp [hd]

theorem firstPresentAny_eq : ∀ d : Candidates,
    firstPresentAny d = (d.find? (fun kv => decide (kv.2 ≠ []))).map Prod.snd := by
  intro d
  induction d with
  | nil => simp [firstPresentAny]
  | cons kv rest ih =>
    obtain ⟨k, v⟩ := kv
    by_cases hv : v = []
    · subst hv
      rw [show firstPresentAny ((k, []) :: rest) = firstPresentAny rest from by
        simp [firstPresentAny]]
      rw [List.find?_cons_of_neg _ (by simp), ih]
    · rw [show firstPresentAny ((k, v) :: rest) = some v from by
        simp [firstPresentAny, hv]]
      rw [List.find?_cons_of_pos _ (by simp [hv])]
      simp

end Align

namespace Align

/-- C1: for non-empty token sequences and a link set whose indices are all in
range, the groups returned by align_tokens partition both index ranges: the
concatenation of the "l2" lists over all returned groups is a permutation of
0, ..., lenA-1 (so the union is exactly that range and no index repeats), and
likewise for the "l1" lists and lenB. -/
theorem align_tokens_partition (pairs : List (Nat × Nat)) (lenA lenB : Nat)
    (hA : lenA ≠ 0) (hB : lenB ≠ 0)
    (hrange : ∀ p ∈ pairs, p.1 < lenA ∧ p.2 < lenB) :
    List.Perm ((align_tokens pairs lenA lenB).flatMap Group.l2) (List.range lenA) ∧
    List.Perm ((align_tokens pairs lenA lenB).flatMap Group.l1) (List.range lenB) := by
  constructor
  · have hflat : (align_tokens pairs lenA lenB).flatMap Group.l2
        = (components pairs).flatMap Group.l2
          ++ (List.range lenA).filter
            (fun i => decide (i ∉ (components pairs).flatMap Group.l2)) := by
      rw [align_tokens_eq hA hB, List.flatMap_append, List.flatMap_append,
        singA_l2, singB_l2, List.append_nil]
    rw [hflat]
    refine (List.perm_ext_iff_of_nodup ?_ (List.nodup_range _)).mpr ?_
    · rw [List.nodup_append]
      refine ⟨nodup_components_l2 pairs, (List.nodup_range _).filter _, ?_⟩
      intro x hx hx'
      have := (List.mem_filter.mp hx').2
      rw [decide_eq_true_eq] at this
      exact this hx
    · intro a
      simp only [List.mem_append, List.mem_filter, List.mem_range,
        decide_eq_true_eq]
      constructor
      · rintro (ha | ⟨ha, _⟩)
        · obtain ⟨j, hj⟩ := mem_components_l2.mp ha
          exact (hrange _ hj).1
        · exact ha
      · intro ha
        by_cases hc : a ∈ (components pairs).flatMap Group.l2
        · exact Or.inl hc
        · exact Or.inr ⟨ha, hc⟩
  · have hflat : (align_tokens pairs lenA lenB).flatMap Group.l1
        = (components pairs).flatMap Group.l1
          ++ (List.range lenB).filter
            (fun j => decide (j ∉ (components pairs).flatMap Group.l1)) := by
      rw [align_tokens_eq hA hB, List.flatMap_append, List.flatMap_append,
        singA_l1, singB_l1, List.append_nil]
    rw [hflat]
    refine (List.perm_ext_iff_of_nodup ?_ (List.nodup_range _)).mpr ?_
    · rw [List.nodup_append]
      refine ⟨nodup_components_l1 pairs, (List.nodup_range _).filter _, ?_⟩
      intro x hx hx'
      have := (List.mem_filter.mp hx').2
      rw [decide_eq_true_eq] at this
      exact this hx
    · intro a
      simp only [List.mem_append, List.mem_filter, List.mem_range,
        decide_eq_true_eq]
      constructor
      · rintro (ha | ⟨ha, _⟩)
        · obtain ⟨i, hi⟩ := mem_components_l1.mp ha
          exact (hrange _ hi).2
        · exact ha
      · intro ha
        by_cases hc : a ∈ (components pairs).flatMap Group.l1
        · exact Or.inl hc
        · exact Or.inr ⟨ha, hc⟩

/-- Witness for C1 at pairs = [(0, 0)], lenA = lenB = 1. -/
theorem align_tokens_partition_witness :
    List.Perm ((align_tokens [(0, 0)] 1 1).flatMap Group.l2) (List.range 1) ∧
    List.Perm ((align_tokens [(0, 0)] 1 1).flatMap Group.l1) (List.range 1) :=
  align_tokens_partition [(0, 0)] 1 1 (by decide) (by decide) (by decide)

/-- C2 counterexample: with the out-of-range link (5, 0) and lenA = 2, lenB = 1,
align_tokens raises no error at all: it returns normally, does not drop the
link, and the first returned group contains the out-of-range index 5 — there is
no InvalidIndex failure anywhere in the code. -/
theorem align_tokens_no_invalid_index_error :
    align_tokens [(5, 0)] 2 1 = [⟨[5], [0]⟩, ⟨[0], []⟩, ⟨[1], []⟩] ∧
    (∃ g ∈ align_tokens [(5, 0)] 2 1, ∃ i ∈ g.l2, 2 ≤ i) := by
  decide

/-- C2 amended: align_tokens performs no index validation: every supplied link,
whether in range or not, is incorporated rather than dropped — both of its
endpoints appear (in the same group) in the returned sequence. Out-of-range
indices therefore flow into the output instead of failing fast. -/
theorem align_tokens_link_never_dropped (pairs : List (Nat × Nat))
    (lenA lenB i j : Nat) (hA : lenA ≠ 0) (hB : lenB ≠ 0) (hp : (i, j) ∈ pairs) :
    ∃ g ∈ align_tokens pairs lenA lenB, i ∈ g.l2 ∧ j ∈ g.l1 := by
  obtain ⟨g, hg, hi, hj⟩ := components_link hp
  refine ⟨g, ?_, hi, hj⟩
  rw [align_tokens_eq hA hB]
  exact List.mem_append_left _ (List.mem_append_left _ hg)

/-- Witness for the amended C2 at the out-of-range link (5, 0), lenA = 2,
lenB = 1. -/
theorem align_tokens_link_never_dropped_witness :
    ∃ g ∈ align_tokens [(5, 0)] 2 1, 5 ∈ g.l2 ∧ 0 ∈ g.l1 :=
  align_tokens_link_never_dropped [(5, 0)] 2 1 5 0 (by decide) (by decide) (by decide)

/-- C3 counterexample: with lenA = 0 and lenB = 1 the code returns the empty
list — it does not return a singleton group for index 0 of the non-empty B
side as the claim asserts. -/
theorem align_tokens_empty_side_counterexample :
    align_tokens [] 0 1 = [] ∧ ¬ ∃ g ∈ align_tokens [] 0 1, 0 ∈ g.l1 := by
  decide

/-- C3 amended: whenever either token sequence is empty (lenA = 0 or
lenB = 0), align_tokens returns the empty sequence of groups; in particular it
does so when both are empty. -/
theorem align_tokens_empty_returns_nil (pairs : List (Nat × Nat)) (lenA lenB : Nat)
    (h : lenA = 0 ∨ lenB = 0) : align_tokens pairs lenA lenB = [] := by
  rw [align_tokens, if_pos h]

/-- Witness for the amended C3 at lenA = 0, lenB = 1, no links. -/
theorem align_tokens_empty_returns_nil_witness : align_tokens [] 0 1 = [] :=
  align_tokens_empty_returns_nil [] 0 1 (Or.inl rfl)

/-- C4: connected link sets merge into one group, including through multi-hop
chains: links (0,0), (1,0) with lenA = 2, lenB = 1 give exactly the one group
l2 = [0, 1], l1 = [0]; links (0,0), (1,0), (1,1) with lenA = lenB = 2 give
exactly the one group l2 = [0, 1], l1 = [0, 1]. -/
theorem align_tokens_merge_chains :
    align_tokens [(0, 0), (1, 0)] 2 1 = [⟨[0, 1], [0]⟩] ∧
    align_tokens [(0, 0), (1, 0), (1, 1)] 2 2 = [⟨[0, 1], [0, 1]⟩] := by
  decide

/-- C5 counterexample: when the preferred name "itermax" is present in the
mapping but with an empty value, _first_present skips it and returns the
non-empty value of "mwmf", whereas the selection rule as the claim words it
(first preferred name present in the mapping) would return the empty value. -/
theorem first_present_empty_preferred_counterexample :
    _first_present [("itermax", []), ("mwmf", [(0, 0)])] PREFERENCE = [(0, 0)] ∧
    firstPresentClaim [("itermax", []), ("mwmf", [(0, 0)])] PREFERENCE = [] := by
  decide

/-- C5 amended: _first_present returns the value of the first preferred key
whose value in the mapping is non-empty; if no preferred key has a non-empty
value it falls back to the first non-empty value in the mapping, and it
returns the empty set if no non-empty candidate exists at all. -/
theorem first_present_eq_amended (d : Candidates) (keys : List String) :
    _first_present d keys = firstPresentAmended d keys := by
  unfold _first_present firstPresentAmended
  rw [firstPresentPref_eq, firstPresentAny_eq]
  cases hk : keys.find? (fun k => decide ((d.lookup k).getD [] ≠ [])) with
  | none =>
    cases hd : d.find? (fun kv => decide (kv.2 ≠ [])) with
    | none => rfl
    | some kv => rfl
  | some k => rfl

/-- C6: every returned group has both of its index lists sorted strictly
ascending, and (for non-empty inputs) the returned sequence is the
connected-component groups first, followed by the A-side singleton groups in
ascending index order, followed by the B-side singleton groups in ascending
index order. -/
theorem align_tokens_group_order (pairs : List (Nat × Nat)) (lenA lenB : Nat) :
    (∀ g ∈ align_tokens pairs lenA lenB,
        List.Sorted (· < ·) g.l2 ∧ List.Sorted (· < ·) g.l1) ∧
    (lenA ≠ 0 → lenB ≠ 0 → ∃ sA sB : List Nat,
      List.Sorted (· < ·) sA ∧ List.Sorted (· < ·) sB ∧
      align_tokens pairs lenA lenB =
        components pairs ++ sA.map (fun i => ⟨[i], []⟩)
          ++ sB.map (fun j => ⟨[], [j]⟩)) := by
  constructor
  · intro g hg
    by_cases hAB : lenA = 0 ∨ lenB = 0
    · rw [align_tokens, if_pos hAB] at hg
      simp at hg
    · obtain ⟨hA, hB⟩ := not_or.mp hAB
      rw [align_tokens_eq hA hB] at hg
      rcases List.mem_append.mp hg with hg' | hg'
      · rcases List.mem_append.mp hg' with hgc | hgs
        · exact components_sorted hgc
        · obtain ⟨i, -, rfl⟩ := List.mem_map.mp hgs
          exact ⟨List.sorted_singleton _, List.sorted_nil⟩
      · obtain ⟨j, -, rfl⟩ := List.mem_map.mp hg'
        exact ⟨List.sorted_nil, List.sorted_singleton _⟩
  · intro hA hB
    refine ⟨_, _, ?_, ?_, align_tokens_eq hA hB⟩
    · exact List.Pairwise.sublist (List.filter_sublist _) (List.sorted_lt_range lenA)
    · exact List.Pairwise.sublist (List.filter_sublist _) (List.sorted_lt_range lenB)

/-- Witness for C6 at pairs = [(0, 0)], lenA = 1, lenB = 2. -/
theorem align_tokens_group_order_witness :
    ∃ sA sB : List Nat,
      List.Sorted (· < ·) sA ∧ List.Sorted (· < ·) sB ∧
      align_tokens [(0, 0)] 1 2 =
        components [(0, 0)] ++ sA.map (fun i => ⟨[i], []⟩)
          ++ sB.map (fun j => ⟨[], [j]⟩) :=
  (align_tokens_group_order [(0, 0)] 1 2).2 (by decide) (by decide)

/-- C7: duplicate links are idempotent: appending a link already present in
the link list leaves the result of align_tokens unchanged; in particular the
list [(0,0), (0,0)] gives the same result as [(0,0)]. -/
theorem align_tokens_duplicate_link (pairs : List (Nat × Nat)) (p : Nat × Nat)
    (lenA lenB : Nat) (hp : p ∈ pairs) :
    align_tokens (pairs ++ [p]) lenA lenB = align_tokens pairs lenA lenB := by
  simp only [align_tokens, components_append_dup hp]

/-- Witness for C7: [(0,0), (0,0)] gives the same result as [(0,0)]. -/
theorem align_tokens_duplicate_link_witness :
    align_tokens ([(0, 0)] ++ [(0, 0)]) 1 1 = align_tokens [(0, 0)] 1 1 :=
  align_tokens_duplicate_link [(0, 0)] (0, 0) 1 1 (by decide)

/-- C8: every group in the sequence returned by align_tokens has at least one
non-empty side: its "l2" list and its "l1" list are never both empty. -/
theorem align_tokens_group_nonempty_side (pairs : List (Nat × Nat))
    (lenA lenB : Nat) (g : Group) (hg : g ∈ align_tokens pairs lenA lenB) :
    g.l2 ≠ [] ∨ g.l1 ≠ [] := by
  by_cases hAB : lenA = 0 ∨ lenB = 0
  · rw [align_tokens, if_pos hAB] at hg
    simp at hg
  · obtain ⟨hA, hB⟩ := not_or.mp hAB
    rw [align_tokens_eq hA hB] at hg
    rcases List.mem_append.mp hg with hg' | hg'
    · rcases List.mem_append.mp hg' with hgc | hgs
      · exact components_nonempty_side hgc
      · obtain ⟨i, -, rfl⟩ := List.mem_map.mp hgs
        exact Or.inl (by simp)
    · obtain ⟨j, -, rfl⟩ := List.mem_map.mp hg'
      exact Or.inr (by simp)

/-- Witness for C8 at pairs = [(0, 0)], lenA = lenB = 1 and its one group. -/
theorem align_tokens_group_nonempty_side_witness :
    (Group.mk [0] [0]).l2 ≠ [] ∨ (Group.mk [0] [0]).l1 ≠ [] :=
  align_tokens_group_nonempty_side [(0, 0)] 1 1 (Group.mk [0] [0]) (by decide)

/-- C9: align_tokens is a pure total function of the link set and the two
lengths: it is defined (returns a list, never an error) on every input, and
two runs on the same link set — presented in any order — and the same lengths
return the same collection of groups, formalized as: permuting the link list
permutes nothing but the order of the returned groups. -/
theorem align_tokens_perm_invariant (pairs pairs' : List (Nat × Nat))
    (lenA lenB : Nat) (h : List.Perm pairs pairs') :
    List.Perm (align_tokens pairs lenA lenB) (align_tokens pairs' lenA lenB) := by
  have hmem : ∀ p, p ∈ pairs ↔ p ∈ pairs' := fun p => h.mem_iff
  by_cases hAB : lenA = 0 ∨ lenB = 0
  · rw [align_tokens, if_pos hAB, align_tokens, if_pos hAB]
  · obtain ⟨hA, hB⟩ := not_or.mp hAB
    rw [align_tokens_eq hA hB, align_tokens_eq hA hB]
    have hl2 : ∀ x : Nat, x ∈ (components pairs).flatMap Group.l2 ↔
        x ∈ (components pairs').flatMap Group.l2 := by
      intro x
      rw [mem_components_l2, mem_components_l2]
      constructor
      · rintro ⟨j, hj⟩
        exact ⟨j, (hmem _).mp hj⟩
      · rintro ⟨j, hj⟩
        exact ⟨j, (hmem _).mpr hj⟩
    have hl1 : ∀ x : Nat, x ∈ (components pairs).flatMap Group.l1 ↔
        x ∈ (components pairs').flatMap Group.l1 := by
      intro x
      rw [mem_components_l1, mem_components_l1]
      constructor
      · rintro ⟨i, hi⟩
        exact ⟨i, (hmem _).mp hi⟩
      · rintro ⟨i, hi⟩
        exact ⟨i, (hmem _).mpr hi⟩
    have hfA : (List.range lenA).filter
          (fun i => decide (i ∉ (components pairs).flatMap Group.l2))
        = (List.range lenA).filter
          (fun i => decide (i ∉ (components pairs').flatMap Group.l2)) :=
      List.filter_congr (fun a _ => decide_eq_decide.mpr (not_congr (hl2 a)))
    have hfB : (List.range lenB).filter
          (fun j => decide (j ∉ (components pairs).flatMap Group.l1))
        = (List.range lenB).filter
          (fun j => decide (j ∉ (components pairs').flatMap Group.l1)) :=
      List.filter_congr (fun a _ => decide_eq_decide.mpr (not_congr (hl1 a)))
    rw [hfA, hfB]
    exact ((components_perm_of_mem hmem).append_right _).append_right _

/-- Witness for C9: the two orders of the link set (0,0), (1,1). -/
theorem align_tokens_perm_invariant_witness :
    List.Perm (align_tokens [(0, 0), (1, 1)] 2 2) (align_tokens [(1, 1), (0, 0)] 2 2) :=
  align_tokens_perm_invariant [(0, 0), (1, 1)] [(1, 1), (0, 0)] 2 2 (by decide)

end Align

namespace MainApi

/-- C10: for every non-empty input list, translate_lines returns exactly
len(texts) lines whatever the translation response is: either the sentinel
split already has the right count, or the newline fallback pads with empty
strings and truncates to the input count. -/
theorem translate_lines_length (texts : List (List Char)) (resText : List Char)
    (h : texts ≠ []) :
    (translate_lines texts resText).length = texts.length := by
  rw [translate_lines]
  by_cases hc : (splitOnChar sentinel resText).length ≠ texts.length
  · rw [if_pos hc]
    rw [List.length_take, List.length_append, List.length_replicate]
    omega
  · rw [if_neg hc]
    exact not_ne_iff.mp hc

/-- Witness for C10 on a two-line input with a response whose sentinel split
collapses into one field. -/
theorem translate_lines_length_witness :
    (translate_lines [['a'], ['b']] ['x']).length = 2 :=
  translate_lines_length [['a'], ['b']] ['x'] (by decide)

end MainApi
